import Mathlib

/-!
Shallow embedding of the mscclpp connection-establishment and
memory-exchange core (src/src/include/mscclpp.hpp and
src/apps/nccl/src/common.hpp).  The public header declares the data model
(UniqueId, TransportFlags, RegisteredMemory, Connection, Communicator);
the method bodies are not part of the sources, so their behaviour is
modelled from the specification where noted.
-/

namespace Mscclpp

/-- Transport capability bitmask, `using TransportFlags = uint32_t` in the
header; modelled as a natural number bitmask. -/
abbrev TransportFlags := Nat

def TransportNone : TransportFlags := 0
def TransportCudaIpc : TransportFlags := 1
def TransportIB0 : TransportFlags := 2
def TransportIB1 : TransportFlags := 4
def TransportIB2 : TransportFlags := 8
def TransportIB3 : TransportFlags := 16
def TransportIB4 : TransportFlags := 32
def TransportIB5 : TransportFlags := 64
def TransportIB6 : TransportFlags := 128
def TransportIB7 : TransportFlags := 256
def TransportAll : TransportFlags := 511

/-- SCRATCH_SIZE from src/apps/nccl/src/common.hpp, a C++ `constexpr int`
computed by the expression 12 * 2 * 1024 * 1024 * 70 in 32-bit signed
arithmetic; modelled over Int (the value fits in 32 bits, proved below). -/
def SCRATCH_SIZE : Int := 12 * 2 * 1024 * 1024 * 70

/-- UniqueId from the header: a struct holding
`char internal[MSCCLPP_UNIQUE_ID_BYTES]` with MSCCLPP_UNIQUE_ID_BYTES = 128;
bytes modelled as naturals. -/
structure UniqueId where
  internal : List Nat
  wf : internal.length = 128

/-- Modelled from the spec: `getUniqueId()` (declared in the header, body not
under src/) generates a fresh opaque 128-byte token; the entropy source is
abstracted as a byte-producing function. -/
def getUniqueId (entropy : Nat → Nat) : UniqueId :=
  ⟨(List.range 128).map entropy, by simp⟩

/-- Modelled from the spec: collective communicator construction from a
UniqueId (the constructor body is not under src/); all ranks joining the same
communicator instance must supply a bit-for-bit identical copy of the id,
so the collective initialisation succeeds only when the per-rank copies
agree byte for byte. -/
def initFromIds (nranks : Nat) (ids : List UniqueId) : Bool :=
  decide (ids.length = nranks) &&
    ids.all (fun a => ids.all (fun b => decide (a.internal = b.internal)))

/-- One transport-specific sub-blob inside a RegisteredMemory: the transport
bit it belongs to, and the opaque handle bytes. -/
structure TransportHandle where
  tag : Nat
  blob : List Nat

/-- RegisteredMemory from the header: size in bytes, supported-transport
bitmask, owning rank, and one transport-specific handle per supported
transport (spec section 3). -/
structure RegisteredMemory where
  size : Nat
  transports : TransportFlags
  rank : Nat
  handles : List TransportHandle

def encodeHandle (h : TransportHandle) : List Nat :=
  h.tag :: h.blob.length :: h.blob

/-- Modelled from the spec: `RegisteredMemory::serialize()` (declared in the
header, body not under src/) produces a self-describing byte sequence
containing size, supported-transport bitmask, owning rank, and the
transport-specific handle bytes for every supported transport (spec 4.3);
the exact layout is an internal contract, modelled as length-prefixed
fields. -/
def RegisteredMemory.serialize (m : RegisteredMemory) : List Nat :=
  m.size :: m.transports :: m.rank :: m.handles.length ::
    (m.handles.map encodeHandle).flatten

def decodeHandles : Nat → List Nat → Option (List TransportHandle × List Nat)
  | 0, rest => some ([], rest)
  | n + 1, tag :: len :: rest =>
    if len ≤ rest.length then
      match decodeHandles n (rest.drop len) with
      | some (hs, rest2) => some (⟨tag, rest.take len⟩ :: hs, rest2)
      | none => none
    else none
  | _ + 1, [] => none
  | _ + 1, [_] => none

/-- Modelled from the spec: `RegisteredMemory::deserialize(bytes)` (declared
in the header, body not under src/) reconstructs a remote-usable handle from
the byte sequence produced by serialize (spec 4.3). -/
def RegisteredMemory.deserialize (bytes : List Nat) : Option RegisteredMemory :=
  match bytes with
  | size :: transports :: rank :: n :: rest =>
    match decodeHandles n rest with
    | some (hs, []) => some ⟨size, transports, rank, hs⟩
    | _ => none
  | _ => none

/-- One asynchronous write posted on a connection but not yet flushed:
destination range, source range, and the source bytes captured at post
time. -/
structure WriteOp where
  dstOffset : Nat
  srcOffset : Nat
  size : Nat
  payload : List Nat

inductive WriteError where
  | bounds
deriving DecidableEq

/-- Connection from the header: a point-to-point channel bound to one
transport capability on each side, with asynchronous write and explicit
completion flush.  The per-transport channel state is modelled as the queue
of posted-but-unflushed writes. -/
structure Connection where
  localRank : Nat
  remoteRank : Nat
  tag : Nat
  transport : TransportFlags
  remoteTransport : TransportFlags
  pending : List WriteOp

/-- Modelled from the spec: `Connection::write(dst, dstOffset, src,
srcOffset, size)` (pure virtual in the header, variants not under src/)
posts an asynchronous copy after checking dstOffset+size against the
destination registered size and symmetrically for the source; out-of-range
arguments are rejected synchronously at post time with a bounds error and
nothing is posted.  srcData holds the bytes at the source at post time. -/
def Connection.write (c : Connection) (dst : RegisteredMemory) (dstOffset : Nat)
    (src : RegisteredMemory) (srcData : List Nat) (srcOffset sz : Nat) :
    Except WriteError Connection :=
  if dstOffset + sz ≤ dst.size ∧ srcOffset + sz ≤ src.size then
    Except.ok { c with pending :=
      c.pending ++ [⟨dstOffset, srcOffset, sz, (srcData.drop srcOffset).take sz⟩] }
  else
    Except.error WriteError.bounds

/-- Completion of one posted write at the destination: the payload bytes
overwrite the destination range. -/
def applyWrite (d : List Nat) (op : WriteOp) : List Nat :=
  d.take op.dstOffset ++ op.payload ++ d.drop (op.dstOffset + op.size)

/-- Modelled from the spec: `Connection::flush()` (pure virtual in the
header, variants not under src/) blocks until every write previously posted
on this connection has completed at the destination; modelled as completing
the whole pending queue in order against the destination bytes and
returning with an empty queue. -/
def Connection.flush (c : Connection) (dstData : List Nat) :
    List Nat × Connection :=
  (c.pending.foldl applyWrite dstData, { c with pending := [] })

/-- A declared connection intent recorded by `Communicator::connect`:
calling rank, remote rank, tag, and requested transport capability. -/
structure Intent where
  src : Nat
  dst : Nat
  tag : Nat
  transport : TransportFlags
deriving DecidableEq

/-- The reverse-declaration matching required by the header: a connection
from rank i to j needs a counterpart from j to i with the same tag. -/
def isReverse (a b : Intent) : Bool :=
  b.src = a.dst && b.dst = a.src && b.tag = a.tag

def connOfMatch (a b : Intent) : Connection :=
  ⟨a.src, a.dst, a.tag, a.transport, b.transport, []⟩

/-- Modelled from the spec: `Communicator::connectionSetup()` (declared in
the header, body not under src/), viewed globally over the declared intents
of all ranks: every intent must have a matching reverse declaration, in
which case every intent becomes an established connection whose local and
remote transports are the two declared capabilities; a one-sided
declaration fails the whole call collectively and establishes nothing. -/
def connectionSetup (decls : List Intent) : Except Unit (List Connection) :=
  if decls.all (fun it => (decls.find? (isReverse it)).isSome) then
    Except.ok (decls.filterMap (fun it =>
      (decls.find? (isReverse it)).map (connOfMatch it)))
  else
    Except.error ()

/-- Modelled from the spec: initial state of the ring allGather
(`Communicator::bootstrapAllGather`, declared in the header, body not under
src/).  The state maps each rank r and each slot s to the slot contents that
rank r currently knows (none if not yet received); initially each rank knows
only its own contribution, in its own slot. -/
def ringInit (N : Nat) [NeZero N] (contrib : ZMod N → List Nat) :
    ZMod N → ZMod N → Option (List Nat) :=
  fun r s => if s = r then some (contrib r) else none

/-- Modelled from the spec: one round of the ring allGather.  In round k
(k = 0, 1, ...), rank r sends its slot r - k to rank r + 1 and receives slot
r - (k+1) from rank r - 1 (spec 4.1: a ring where rank r sends to (r+1) mod
N and receives from (r-1) mod N, circulating partial aggregates). -/
def ringRound (N : Nat) [NeZero N] (k : Nat)
    (st : ZMod N → ZMod N → Option (List Nat)) :
    ZMod N → ZMod N → Option (List Nat) :=
  fun r s => if s = r - ((k + 1 : Nat) : ZMod N) then st (r - 1) s else st r s

/-- The ring allGather state after k rounds. -/
def ringRun (N : Nat) [NeZero N] (contrib : ZMod N → List Nat) :
    Nat → ZMod N → ZMod N → Option (List Nat)
  | 0 => ringInit N contrib
  | k + 1 => ringRound N k (ringRun N contrib k)

/-- Modelled from the spec: the bytes in rank r's buffer after
`bootstrapAllGather` returns: the N slots of the final ring state (after
N - 1 rounds), concatenated in rank order. -/
def bootstrapAllGather (N : Nat) [NeZero N] (contrib : ZMod N → List Nat)
    (r : ZMod N) : List Nat :=
  ((List.range N).map
    (fun (s : Nat) => (ringRun N contrib (N - 1) r ((s : Nat) : ZMod N)).getD [])).flatten

/-- Global state of the bootstrap barrier protocol over N ranks: which ranks
have entered their `bootstrapBarrier` call and which have returned from
it. -/
structure BarrierState (N : Nat) where
  entered : Finset (Fin N)
  exited : Finset (Fin N)

def barrierInit (N : Nat) : BarrierState N := ⟨∅, ∅⟩

/-- Modelled from the spec: the transitions of `bootstrapBarrier` (declared
in the header, body not under src/; the spec says it returns on no rank
until every rank has called it).  A rank may enter at any time; a rank may
return (exit) only once every rank has entered. -/
inductive BarrierStep (N : Nat) : BarrierState N → BarrierState N → Prop where
  | enter (r : Fin N) (s : BarrierState N) :
      BarrierStep N s ⟨insert r s.entered, s.exited⟩
  | exit (r : Fin N) (s : BarrierState N) :
      s.entered = Finset.univ →
      BarrierStep N s ⟨s.entered, insert r s.exited⟩

/-- States reachable from the initial barrier state. -/
inductive BarrierReachable (N : Nat) : BarrierState N → Prop where
  | init : BarrierReachable N (barrierInit N)
  | step (s t : BarrierState N) :
      BarrierReachable N s → BarrierStep N s t → BarrierReachable N t

/-- Communicator from the header: rank identity, total rank count, owned
registrations, declared intents, established connections. -/
structure Communicator where
  rank : Nat
  size : Nat
  registered : List RegisteredMemory
  intents : List Intent
  conns : List Connection

/-- Modelled from the spec: communicator construction (bodies not under
src/); nranks processes with rank 0 to nranks-1 call it, fixing rank() and
size() at construction. -/
def mkCommunicator (nranks rank : Nat) : Option Communicator :=
  if rank < nranks then some ⟨rank, nranks, [], [], []⟩ else none

/-- Modelled from the spec: `Communicator::connect(remoteRank, tag,
transport)` records an intent and does not touch the network. -/
def Communicator.connect (c : Communicator) (remoteRank tag : Nat)
    (transport : TransportFlags) : Communicator :=
  { c with intents := c.intents ++ [⟨c.rank, remoteRank, tag, transport⟩] }

/-- Modelled from the spec: `Communicator::registerMemory(ptr, size,
transports)` acquires transport-specific handles for the region and records
the registration as communicator-owned; the handle blobs are opaque
driver-produced bytes, abstracted by a blob-producing function. -/
def Communicator.registerMemory (c : Communicator) (sz : Nat)
    (transports : TransportFlags) (blobOf : Nat → List Nat) :
    Communicator × RegisteredMemory :=
  let m : RegisteredMemory :=
    ⟨sz, transports, c.rank,
      ((List.range 9).filter (fun b => transports.testBit b)).map
        (fun b => ⟨b, blobOf b⟩)⟩
  ({ c with registered := c.registered ++ [m] }, m)

/-- Modelled from the spec: the per-rank view of `connectionSetup()`: runs
the global setup over all ranks' declared intents and, on success, keeps the
connections whose local end is this rank. -/
def Communicator.connectionSetupAt (c : Communicator)
    (globalDecls : List Intent) : Except Unit Communicator :=
  match connectionSetup globalDecls with
  | Except.ok conns =>
    Except.ok { c with conns := conns.filter (fun x => x.localRank = c.rank) }
  | Except.error e => Except.error e

/-- Modelled from the spec: `bootstrapAllGather` fills the caller's buffer
with all ranks' contributions but leaves the communicator state itself
unchanged. -/
def Communicator.bootstrapAllGatherAt (c : Communicator)
    (contrib : Nat → List Nat) : Communicator × List Nat :=
  (c, match c.size with
      | 0 => []
      | n + 1 =>
        bootstrapAllGather (n + 1) (fun i : ZMod (n + 1) => contrib i.val)
          (c.rank : ZMod (n + 1)))

/-- The header documents `bootstrapBarrier` as a no-op function used only to
synchronize all processes: it carries no payload and leaves the communicator
state unchanged. -/
def Communicator.bootstrapBarrierAt (c : Communicator) : Communicator := c

/-! ## Theorems -/

/-- Claim C7: TransportAll equals the bitwise union of every defined
transport flag (the IPC flag and the eight IB device flags), and it covers
exactly those nine low bits and no other bits. -/
theorem transportAll_is_union_of_flags :
    TransportAll = (TransportCudaIpc ||| TransportIB0 ||| TransportIB1 |||
      TransportIB2 ||| TransportIB3 ||| TransportIB4 ||| TransportIB5 |||
      TransportIB6 ||| TransportIB7) ∧
    ∀ n : Nat, TransportAll.testBit n = true ↔ n < 9 := by
  constructor
  · decide
  · intro n
    rw [show TransportAll = 2 ^ 9 - 1 by decide, Nat.testBit_two_pow_sub_one]
    simp

/-- Claim C7 witness: the characterisation applied at bit 0. -/
theorem transportAll_is_union_of_flags_witness :
    TransportAll.testBit 0 = true :=
  (transportAll_is_union_of_flags.2 0).mpr (by decide)

/-- Claim C10: SCRATCH_SIZE, computed as 12 * 2 * 1024 * 1024 * 70 in 32-bit
signed int arithmetic, evaluates without overflow to exactly 1761607680:
every intermediate left-to-right product stays strictly below 2^31. -/
theorem scratchSize_no_overflow :
    SCRATCH_SIZE = 1761607680 ∧
    (12 * 2 : Int) < 2 ^ 31 ∧ (12 * 2 * 1024 : Int) < 2 ^ 31 ∧
    (12 * 2 * 1024 * 1024 : Int) < 2 ^ 31 ∧ SCRATCH_SIZE < 2 ^ 31 := by
  refine ⟨by decide, by decide, by decide, by decide, by decide⟩

/-- Claim C9: a UniqueId is exactly 128 bytes, getUniqueId always produces a
value of that exact size, and a collective initialisation from per-rank
copies of an id succeeds only when every rank supplied a bit-for-bit
identical copy. -/
theorem uniqueId_fixed_size :
    (∀ entropy : Nat → Nat, (getUniqueId entropy).internal.length = 128) ∧
    (∀ id : UniqueId, id.internal.length = 128) ∧
    (∀ n : Nat, ∀ ids : List UniqueId, initFromIds n ids = true →
      ∀ a ∈ ids, ∀ b ∈ ids, a.internal = b.internal) := by
  refine ⟨fun entropy => by simp [getUniqueId], fun id => id.wf, ?_⟩
  intro n ids h a ha b hb
  unfold initFromIds at h
  rw [Bool.and_eq_true, List.all_eq_true] at h
  have h2 := h.2 a ha
  rw [List.all_eq_true] at h2
  exact of_decide_eq_true (h2 b hb)

def sampleId : UniqueId := ⟨List.replicate 128 7, by simp⟩

/-- Claim C9 witness: concrete instantiation at one entropy source and a
one-rank id list. -/
theorem uniqueId_fixed_size_witness :
    (getUniqueId (fun _ => 0)).internal.length = 128 ∧
    sampleId.internal.length = 128 ∧
    sampleId.internal = sampleId.internal :=
  ⟨uniqueId_fixed_size.1 (fun _ => 0), uniqueId_fixed_size.2.1 sampleId,
    uniqueId_fixed_size.2.2 1 [sampleId] (by decide)
      sampleId (by simp) sampleId (by simp)⟩

theorem decodeHandles_encode (hs : List TransportHandle) :
    ∀ rest : List Nat,
      decodeHandles hs.length ((hs.map encodeHandle).flatten ++ rest) =
        some (hs, rest) := by
  induction hs with
  | nil => intro rest; rfl
  | cons h t ih =>
    intro rest
    rw [List.map_cons, List.flatten_cons, List.length_cons, List.append_assoc]
    show decodeHandles (t.length + 1)
      (h.tag :: h.blob.length :: (h.blob ++ ((t.map encodeHandle).flatten ++ rest)))
        = some (h :: t, rest)
    rw [decodeHandles]
    rw [if_pos (by simp)]
    rw [show h.blob.length = (h.blob).length from rfl, List.drop_left,
      List.take_left, ih rest]

/-- Claim C2: deserialize(serialize(M)) recovers M, in particular an object
whose size, transports and rank equal those of M; the serialized sequence
carries the size, the transport bitmask, the owning rank and one
transport-specific sub-blob per supported transport, as laid out by
serialize. -/
theorem serialize_roundtrip (m : RegisteredMemory) :
    RegisteredMemory.deserialize m.serialize = some m ∧
    ∃ m' : RegisteredMemory, RegisteredMemory.deserialize m.serialize = some m' ∧
      m'.size = m.size ∧ m'.transports = m.transports ∧ m'.rank = m.rank := by
  have key : RegisteredMemory.deserialize m.serialize = some m := by
    have h1 := decodeHandles_encode m.handles []
    rw [List.append_nil] at h1
    show (match decodeHandles m.handles.length ((m.handles.map encodeHandle).flatten) with
          | some (hs, []) => some (⟨m.size, m.transports, m.rank, hs⟩ : RegisteredMemory)
          | _ => none) = some m
    rw [h1]
  exact ⟨key, m, key, rfl, rfl, rfl⟩

/-- Claim C4: a write whose destination or source range exceeds the
corresponding registered memory size fails synchronously at post time with a
bounds error; nothing is posted, so no transfer is attempted and the
destination memory is unchanged. -/
theorem write_out_of_bounds_rejected (c : Connection) (dst : RegisteredMemory)
    (dstOffset : Nat) (src : RegisteredMemory) (srcData : List Nat)
    (srcOffset sz : Nat)
    (h : dst.size < dstOffset + sz ∨ src.size < srcOffset + sz) :
    c.write dst dstOffset src srcData srcOffset sz =
      Except.error WriteError.bounds ∧
    ∀ c' : Connection, c.write dst dstOffset src srcData srcOffset sz ≠
      Except.ok c' := by
  have hcond : ¬(dstOffset + sz ≤ dst.size ∧ srcOffset + sz ≤ src.size) := by
    omega
  constructor
  · unfold Connection.write
    rw [if_neg hcond]
  · intro c' hc
    unfold Connection.write at hc
    rw [if_neg hcond] at hc
    exact Except.noConfusion hc

/-- Claim C4 witness: a one-byte write into a zero-size destination is
rejected with a bounds error. -/
theorem write_out_of_bounds_rejected_witness :
    Connection.write ⟨0, 1, 0, 1, 1, []⟩ ⟨0, 1, 1, []⟩ 0 ⟨1, 1, 0, []⟩ [9] 0 1 =
      Except.error WriteError.bounds ∧
    ∀ c' : Connection,
      Connection.write ⟨0, 1, 0, 1, 1, []⟩ ⟨0, 1, 1, []⟩ 0 ⟨1, 1, 0, []⟩ [9] 0 1 ≠
        Except.ok c' :=
  write_out_of_bounds_rejected ⟨0, 1, 0, 1, 1, []⟩ ⟨0, 1, 1, []⟩ 0 ⟨1, 1, 0, []⟩
    [9] 0 1 (Or.inl (by decide))

theorem applyWrite_length (d : List Nat) (op : WriteOp)
    (hle : op.dstOffset + op.size ≤ d.length)
    (hp : op.payload.length = op.size) :
    (applyWrite d op).length = d.length := by
  unfold applyWrite
  simp [List.length_take, List.length_drop, hp]
  omega

theorem foldl_applyWrite_length (ops : List WriteOp) :
    ∀ d : List Nat,
      (∀ op ∈ ops, op.dstOffset + op.size ≤ d.length ∧
        op.payload.length = op.size) →
      (ops.foldl applyWrite d).length = d.length := by
  induction ops with
  | nil => intro d _; rfl
  | cons op t ih =>
    intro d h
    have h0 := h op (List.mem_cons_self op t)
    have hlen : (applyWrite d op).length = d.length :=
      applyWrite_length d op h0.1 h0.2
    rw [List.foldl_cons, ih (applyWrite d op)
      (fun o ho => by rw [hlen]; exact h o (List.mem_cons_of_mem op ho))]
    exact hlen

theorem drop_append_of_length (l₁ l₂ : List Nat) (n : Nat)
    (h : l₁.length = n) : (l₁ ++ l₂).drop n = l₂ := by
  subst h; exact List.drop_left l₁ l₂

theorem take_append_of_length (l₁ l₂ : List Nat) (n : Nat)
    (h : l₁.length = n) : (l₁ ++ l₂).take n = l₁ := by
  subst h; exact List.take_left l₁ l₂

/-- Claim C5: after an in-bounds write followed by flush on the same
connection, the destination bytes in the written range equal the source
bytes captured at post time; flush completes every previously posted write
(the whole pending queue is applied and emptied) and preserves the
destination length. -/
theorem write_then_flush_contents (c : Connection) (dst : RegisteredMemory)
    (dstData : List Nat) (dstOffset : Nat) (src : RegisteredMemory)
    (srcData : List Nat) (srcOffset sz : Nat) (c' : Connection)
    (hdst : dstData.length = dst.size)
    (hsrc : srcData.length = src.size)
    (hin : dstOffset + sz ≤ dst.size)
    (hsrcin : srcOffset + sz ≤ src.size)
    (hpend : ∀ op ∈ c.pending, op.dstOffset + op.size ≤ dstData.length ∧
      op.payload.length = op.size)
    (hw : c.write dst dstOffset src srcData srcOffset sz = Except.ok c') :
    (((c'.flush dstData).1.drop dstOffset).take sz =
      (srcData.drop srcOffset).take sz) ∧
    (c'.flush dstData).1.length = dstData.length ∧
    (c'.flush dstData).2.pending = [] := by
  have hcond : dstOffset + sz ≤ dst.size ∧ srcOffset + sz ≤ src.size :=
    ⟨hin, hsrcin⟩
  unfold Connection.write at hw
  rw [if_pos hcond] at hw
  have hc' : c' = { c with pending :=
      c.pending ++ [⟨dstOffset, srcOffset, sz, (srcData.drop srcOffset).take sz⟩] } :=
    (Except.ok.inj hw).symm
  subst hc'
  have hmid : ((c.pending).foldl applyWrite dstData).length = dstData.length :=
    foldl_applyWrite_length c.pending dstData hpend
  simp only [Connection.flush, List.foldl_append, List.foldl_cons, List.foldl_nil]
  set mid := (c.pending).foldl applyWrite dstData with hmiddef
  set pay := (srcData.drop srcOffset).take sz with hpaydef
  have hpay : pay.length = sz := by
    rw [hpaydef]
    simp only [List.length_take, List.length_drop]
    omega
  have happ : applyWrite mid ⟨dstOffset, srcOffset, sz, pay⟩ =
      mid.take dstOffset ++ pay ++ mid.drop (dstOffset + sz) := rfl
  have htakelen : (mid.take dstOffset).length = dstOffset := by
    simp only [List.length_take]
    omega
  refine ⟨?_, ?_, trivial⟩
  · rw [happ, List.append_assoc, drop_append_of_length _ _ _ htakelen,
      take_append_of_length _ _ _ hpay]
  · rw [happ]
    simp only [List.length_append, List.length_take, List.length_drop, hpay, hmid]
    omega

def sampleConn : Connection := ⟨0, 1, 0, 1, 1, []⟩

def samplePosted : Connection := ⟨0, 1, 0, 1, 1, [⟨1, 0, 1, [9]⟩]⟩

/-- Claim C5 witness: a concrete one-byte write into offset 1 of a two-byte
destination, then flush. -/
theorem write_then_flush_contents_witness :
    ((samplePosted.flush [5, 6]).1.drop 1).take 1 =
      (([9] : List Nat).drop 0).take 1 ∧
    (samplePosted.flush [5, 6]).1.length = ([5, 6] : List Nat).length ∧
    (samplePosted.flush [5, 6]).2.pending = [] :=
  write_then_flush_contents sampleConn ⟨2, 1, 1, []⟩ [5, 6] 1 ⟨1, 1, 0, []⟩
    [9] 0 1 samplePosted (by decide) (by decide) (by decide) (by decide)
    (by intro op hop; simp [sampleConn] at hop) (by rfl)

theorem filterMap_total_length {α β : Type} (f : α → Option β) :
    ∀ l : List α, (∀ a ∈ l, (f a).isSome) →
      (l.filterMap f).length = l.length := by
  intro l
  induction l with
  | nil => intro _; rfl
  | cons a t ih =>
    intro h
    have ha := h a (List.mem_cons_self a t)
    rw [List.filterMap_cons]
    match hfa : f a with
    | some b =>
      simp only [List.length_cons]
      rw [ih (fun x hx => h x (List.mem_cons_of_mem a hx))]
    | none => rw [hfa] at ha; exact absurd ha (by simp)

/-- Claim C3: when every declared intent has a matching reverse declaration
(same tag, opposite direction), connectionSetup succeeds and yields one
connection per intent whose local and remote transports are the two declared
capability bits; when some intent has no matching reverse declaration,
connectionSetup fails collectively, establishing nothing. -/
theorem connectionSetup_matching (decls : List Intent) :
    ((∀ it ∈ decls, ∃ rev ∈ decls, isReverse it rev = true) →
      ∃ conns : List Connection, connectionSetup decls = Except.ok conns ∧
        conns.length = decls.length ∧
        ∀ p ∈ conns, ∃ it ∈ decls, ∃ rev ∈ decls, isReverse it rev = true ∧
          p.localRank = it.src ∧ p.remoteRank = it.dst ∧ p.tag = it.tag ∧
          p.transport = it.transport ∧ p.remoteTransport = rev.transport) ∧
    ((∃ it ∈ decls, ∀ rev ∈ decls, isReverse it rev = false) →
      connectionSetup decls = Except.error ()) := by
  constructor
  · intro h
    have hall : decls.all (fun it => (decls.find? (isReverse it)).isSome) = true := by
      rw [List.all_eq_true]
      intro it hit
      exact List.find?_isSome.mpr (h it hit)
    refine ⟨decls.filterMap (fun it =>
      (decls.find? (isReverse it)).map (connOfMatch it)), ?_, ?_, ?_⟩
    · unfold connectionSetup
      rw [if_pos hall]
    · refine filterMap_total_length _ decls (fun it hit => ?_)
      cases hfind : decls.find? (isReverse it) with
      | none =>
        rw [List.all_eq_true] at hall
        have hcontra := hall it hit
        rw [hfind] at hcontra
        exact absurd hcontra (by simp)
      | some rev => simp
    · intro p hp
      rw [List.mem_filterMap] at hp
      obtain ⟨it, hit, hfit⟩ := hp
      match hfind : decls.find? (isReverse it) with
      | some rev =>
        rw [hfind] at hfit
        have hfit2 : connOfMatch it rev = p :=
          Option.some.inj hfit
        refine ⟨it, hit, rev, List.mem_of_find?_eq_some hfind,
          List.find?_some hfind, ?_⟩
        rw [← hfit2]
        exact ⟨rfl, rfl, rfl, rfl, rfl⟩
      | none => rw [hfind] at hfit; exact absurd hfit (by simp)
  · intro h
    obtain ⟨it, hit, hno⟩ := h
    have hnone : decls.find? (isReverse it) = none := by
      rw [List.find?_eq_none]
      intro x hx
      rw [hno x hx]
      exact Bool.false_ne_true
    have hall : decls.all (fun x => (decls.find? (isReverse x)).isSome) = false := by
      rw [Bool.eq_false_iff]
      intro hcontra
      rw [List.all_eq_true] at hcontra
      have := hcontra it hit
      rw [hnone] at this
      exact absurd this (by simp)
    unfold connectionSetup
    rw [if_neg (by rw [hall]; exact Bool.false_ne_true)]

def sampleDecls : List Intent := [⟨0, 1, 5, 1⟩, ⟨1, 0, 5, 2⟩]

/-- Claim C3 witness: a mutually declared pair of intents between ranks 0
and 1 with tag 5. -/
theorem connectionSetup_matching_witness :
    ∃ conns : List Connection, connectionSetup sampleDecls = Except.ok conns ∧
      conns.length = sampleDecls.length ∧
      ∀ p ∈ conns, ∃ it ∈ sampleDecls, ∃ rev ∈ sampleDecls,
        isReverse it rev = true ∧
        p.localRank = it.src ∧ p.remoteRank = it.dst ∧ p.tag = it.tag ∧
        p.transport = it.transport ∧ p.remoteTransport = rev.transport :=
  (connectionSetup_matching sampleDecls).1 (by decide)

/-- Claim C6: rank() and size() are fixed at construction, satisfy
0 ≤ rank < size (rank is a natural, hence nonnegative), and are unchanged
by connect, registerMemory, connectionSetup, bootstrapAllGather and
bootstrapBarrier. -/
theorem rank_size_stable (nranks rank : Nat) (c : Communicator)
    (h : mkCommunicator nranks rank = some c) :
    c.rank = rank ∧ c.size = nranks ∧ c.rank < c.size ∧
    (∀ j t tr, (c.connect j t tr).rank = c.rank ∧
      (c.connect j t tr).size = c.size) ∧
    (∀ sz tr blobOf, (c.registerMemory sz tr blobOf).1.rank = c.rank ∧
      (c.registerMemory sz tr blobOf).1.size = c.size) ∧
    (∀ decls c', c.connectionSetupAt decls = Except.ok c' →
      c'.rank = c.rank ∧ c'.size = c.size) ∧
    (∀ contrib, (c.bootstrapAllGatherAt contrib).1 = c) ∧
    c.bootstrapBarrierAt = c := by
  unfold mkCommunicator at h
  by_cases hlt : rank < nranks
  · rw [if_pos hlt] at h
    have hc : c = ⟨rank, nranks, [], [], []⟩ := (Option.some.inj h).symm
    subst hc
    refine ⟨rfl, rfl, hlt, fun j t tr => ⟨rfl, rfl⟩,
      fun sz tr blobOf => ⟨rfl, rfl⟩, ?_, fun contrib => rfl, rfl⟩
    intro decls c' hsetup
    unfold Communicator.connectionSetupAt at hsetup
    match hcs : connectionSetup decls with
    | Except.ok conns =>
      rw [hcs] at hsetup
      simp only at hsetup
      have := (Except.ok.inj hsetup).symm
      subst this
      exact ⟨rfl, rfl⟩
    | Except.error e =>
      rw [hcs] at hsetup
      exact absurd hsetup (by simp)
  · rw [if_neg hlt] at h
    exact absurd h (by simp)

/-- Claim C6 witness: a two-rank communicator at rank 0. -/
theorem rank_size_stable_witness :
    (⟨0, 2, [], [], []⟩ : Communicator).rank = 0 ∧
    (⟨0, 2, [], [], []⟩ : Communicator).size = 2 ∧
    (⟨0, 2, [], [], []⟩ : Communicator).rank <
      (⟨0, 2, [], [], []⟩ : Communicator).size ∧
    (∀ j t tr, ((⟨0, 2, [], [], []⟩ : Communicator).connect j t tr).rank =
        (⟨0, 2, [], [], []⟩ : Communicator).rank ∧
      ((⟨0, 2, [], [], []⟩ : Communicator).connect j t tr).size =
        (⟨0, 2, [], [], []⟩ : Communicator).size) ∧
    (∀ sz tr blobOf,
      ((⟨0, 2, [], [], []⟩ : Communicator).registerMemory sz tr blobOf).1.rank =
        (⟨0, 2, [], [], []⟩ : Communicator).rank ∧
      ((⟨0, 2, [], [], []⟩ : Communicator).registerMemory sz tr blobOf).1.size =
        (⟨0, 2, [], [], []⟩ : Communicator).size) ∧
    (∀ decls c', (⟨0, 2, [], [], []⟩ : Communicator).connectionSetupAt decls =
        Except.ok c' →
      c'.rank = (⟨0, 2, [], [], []⟩ : Communicator).rank ∧
      c'.size = (⟨0, 2, [], [], []⟩ : Communicator).size) ∧
    (∀ contrib,
      ((⟨0, 2, [], [], []⟩ : Communicator).bootstrapAllGatherAt contrib).1 =
        (⟨0, 2, [], [], []⟩ : Communicator)) ∧
    (⟨0, 2, [], [], []⟩ : Communicator).bootstrapBarrierAt =
      (⟨0, 2, [], [], []⟩ : Communicator) :=
  rank_size_stable 2 0 ⟨0, 2, [], [], []⟩ (by rfl)

/-- Claim C8: in every reachable state of the barrier protocol, if any rank
has returned from its bootstrapBarrier call then every rank has already
entered its own call: no call completes while some rank has not yet entered. -/
theorem barrier_no_early_return (N : Nat) (s : BarrierState N)
    (h : BarrierReachable N s) (hne : s.exited.Nonempty) :
    ∀ r : Fin N, r ∈ s.entered := by
  have key : ∀ t : BarrierState N, BarrierReachable N t →
      t.exited.Nonempty → t.entered = Finset.univ := by
    intro t ht
    induction ht with
    | init =>
      intro hcontra
      exact absurd hcontra (by simp [barrierInit])
    | step s' t' _ hstep ih =>
      cases hstep with
      | enter r s' =>
        intro hne'
        have : s'.entered = Finset.univ := ih hne'
        rw [this]
        simp
      | exit r s' hall =>
        intro _
        exact hall
  intro r
  rw [key s h hne]
  exact Finset.mem_univ r

/-- Claim C8 witness: with two ranks, after both enter and rank 0 exits,
every rank has entered. -/
theorem barrier_no_early_return_witness :
    (0 : Fin 2) ∈ (⟨insert 1 (insert 0 ∅), insert 0 ∅⟩ : BarrierState 2).entered :=
  barrier_no_early_return 2 ⟨insert 1 (insert 0 ∅), insert 0 ∅⟩
    (BarrierReachable.step _ _
      (BarrierReachable.step _ _
        (BarrierReachable.step _ _ (BarrierReachable.init)
          (BarrierStep.enter 0 (barrierInit 2)))
        (BarrierStep.enter 1 ⟨insert 0 ∅, ∅⟩))
      (BarrierStep.exit 0 ⟨insert 1 (insert 0 ∅), ∅⟩ (by decide)))
    ⟨0, by decide⟩ 0

theorem ringRun_eq (N : Nat) [NeZero N] (contrib : ZMod N → List Nat)
    (k : Nat) : ∀ r s : ZMod N,
    ringRun N contrib k r s =
      if (r - s).val ≤ k then some (contrib s) else none := by
  induction k with
  | zero =>
    intro r s
    show (if s = r then some (contrib r) else none) = _
    by_cases hs : s = r
    · subst hs
      rw [if_pos rfl, if_pos (by simp)]
    · rw [if_neg hs, if_neg ?_]
      intro hle
      have h0 : r - s = 0 := (ZMod.val_eq_zero _).mp (Nat.le_zero.mp hle)
      exact hs (sub_eq_zero.mp h0).symm
  | succ k ih =>
    intro r s
    show (if s = r - ((k + 1 : Nat) : ZMod N) then ringRun N contrib k (r - 1) s
      else ringRun N contrib k r s) = _
    by_cases hs : s = r - ((k + 1 : Nat) : ZMod N)
    · rw [if_pos hs, ih (r - 1) s]
      have hrs : r - s = ((k + 1 : Nat) : ZMod N) := by
        rw [hs]; exact sub_sub_cancel r _
      have hr1s : (r - 1) - s = ((k : Nat) : ZMod N) := by
        rw [sub_right_comm, hrs]
        push_cast
        exact add_sub_cancel_right (k : ZMod N) 1
      rw [if_pos ?_, if_pos ?_]
      · rw [hrs, ZMod.val_natCast]
        exact le_trans (Nat.mod_le _ _) (le_refl _)
      · rw [hr1s, ZMod.val_natCast]
        exact Nat.le_trans (Nat.mod_le _ _) (le_refl _)
    · rw [if_neg hs, ih r s]
      have hne : (r - s).val ≠ k + 1 := by
        intro heq
        have hcast : ((r - s).val : ZMod N) = r - s :=
          ZMod.natCast_rightInverse (r - s)
        rw [heq] at hcast
        exact hs (by rw [← sub_sub_cancel r s, ← hcast])
      by_cases hle : (r - s).val ≤ k
      · rw [if_pos hle, if_pos (Nat.le_succ_of_le hle)]
      · rw [if_neg hle, if_neg (by omega)]

theorem ringRun_final (N : Nat) [NeZero N] (contrib : ZMod N → List Nat)
    (r s : ZMod N) :
    ringRun N contrib (N - 1) r s = some (contrib s) := by
  rw [ringRun_eq]
  have hlt := ZMod.val_lt (r - s)
  rw [if_pos (by omega)]

theorem flatten_take_drop (sz : Nat) :
    ∀ (L : List (List Nat)) (j : Nat),
      (∀ l ∈ L, l.length = sz) → j < L.length →
      (L.flatten.drop (j * sz)).take sz = L.getD j [] := by
  intro L
  induction L with
  | nil => intro j _ hj; exact absurd hj (by simp)
  | cons l t ih =>
    intro j hall hj
    cases j with
    | zero =>
      rw [List.flatten_cons, Nat.zero_mul, List.drop_zero,
        take_append_of_length l _ sz (hall l (List.mem_cons_self l t)),
        List.getD_cons_zero]
    | succ j =>
      rw [List.flatten_cons]
      have hlen : l.length = sz := hall l (List.mem_cons_self l t)
      rw [show (j + 1) * sz = l.length + j * sz by rw [hlen]; ring,
        List.drop_append, List.getD_cons_succ]
      exact ih j (fun x hx => hall x (List.mem_cons_of_mem l hx))
        (by simpa using hj)

/-- Claim C1: after the ring bootstrapAllGather completes its N - 1 rounds,
every rank's buffer is the concatenation of all ranks' contributions in
rank order; it has length N * size, its sub-range starting at j * size of
length size is rank j's contribution for every rank j, and it is identical
on every rank. -/
theorem bootstrapAllGather_concat (N : Nat) [NeZero N] (sz : Nat)
    (contrib : ZMod N → List Nat) (hsz : ∀ i, (contrib i).length = sz)
    (r : ZMod N) :
    bootstrapAllGather N contrib r =
      ((List.range N).map (fun s => contrib ((s : Nat) : ZMod N))).flatten ∧
    (bootstrapAllGather N contrib r).length = N * sz ∧
    (∀ j : Nat, j < N →
      ((bootstrapAllGather N contrib r).drop (j * sz)).take sz =
        contrib ((j : Nat) : ZMod N)) ∧
    (∀ q : ZMod N, bootstrapAllGather N contrib r =
      bootstrapAllGather N contrib q) := by
  have key : ∀ q : ZMod N, bootstrapAllGather N contrib q =
      ((List.range N).map (fun s => contrib ((s : Nat) : ZMod N))).flatten := by
    intro q
    unfold bootstrapAllGather
    congr 1
    refine List.map_congr_left (fun s _ => ?_)
    rw [ringRun_final]
    rfl
  have hmaplen : ∀ l ∈ (List.range N).map
      (fun s => contrib ((s : Nat) : ZMod N)), l.length = sz := by
    intro l hl
    rw [List.mem_map] at hl
    obtain ⟨a, _, ha⟩ := hl
    rw [← ha]
    exact hsz _
  refine ⟨key r, ?_, ?_, fun q => by rw [key r, key q]⟩
  · rw [key r, List.length_flatten, List.map_map]
    have hconst : (List.range N).map
        (List.length ∘ fun s => contrib ((s : Nat) : ZMod N)) =
          (List.range N).map (fun _ => sz) :=
      List.map_congr_left (fun a _ => hsz _)
    rw [hconst, List.map_const', List.sum_replicate, List.length_range,
      smul_eq_mul]
  · intro j hj
    rw [key r, flatten_take_drop sz _ j hmaplen (by simpa using hj),
      List.getD_eq_getElem _ _ (by simpa using hj), List.getElem_map,
      List.getElem_range]

def sampleContrib : ZMod 2 → List Nat := fun i => if i = 0 then [3] else [4]

/-- Claim C1 witness: two ranks contributing one byte each. -/
theorem bootstrapAllGather_concat_witness :
    bootstrapAllGather 2 sampleContrib 0 =
      ((List.range 2).map (fun s => sampleContrib ((s : Nat) : ZMod 2))).flatten ∧
    (bootstrapAllGather 2 sampleContrib 0).length = 2 * 1 ∧
    (∀ j : Nat, j < 2 →
      ((bootstrapAllGather 2 sampleContrib 0).drop (j * 1)).take 1 =
        sampleContrib ((j : Nat) : ZMod 2)) ∧
    (∀ q : ZMod 2, bootstrapAllGather 2 sampleContrib 0 =
      bootstrapAllGather 2 sampleContrib q) :=
  bootstrapAllGather_concat 2 1 sampleContrib (by decide) 0

end Mscclpp
